import Mathlib

/-!
Verification of the memoized position-lookup cache inside `IndexOf`
(`src/islices/slice.go`, package `islice`).

The Go function keeps two process-wide maps,

  memoryHashMap     : map[string]map[any]int
  memoryHashCounter : map[string]int

keyed by `fmt.Sprintf("%p", arr)`, the formatted base address of the slice's
backing storage.  The pointer formatter is injective on addresses and never
produces the empty string, so keys are modelled as bare `Nat` addresses and
the zero value of Go's `minKey` string variable (which can never collide with
a tracked key) is modelled as `Option.none`.  Go maps are modelled as
association lists; the list order stands for one admissible (unspecified)
iteration order of a Go map.  The reader/writer lock and the double-checked
build collapse in this sequential model: a single emptiness check decides
whether the entry is built.
-/

namespace Islice

/-- First-match lookup in an association list keyed by `Nat`,
modelling Go's `m[k]` read (comma-ok form). -/
def mapLookup {α : Type} (m : List (Nat × α)) (k : Nat) : Option α :=
  match m with
  | [] => none
  | p :: rest => if p.1 = k then some p.2 else mapLookup rest k

/-- Overwriting insertion, modelling Go's `m[k] = v`: the existing binding is
replaced in place, a new key is appended at the end of the iteration order. -/
def mapInsert {α : Type} (m : List (Nat × α)) (k : Nat) (v : α) : List (Nat × α) :=
  match m with
  | [] => [(k, v)]
  | p :: rest => if p.1 = k then (k, v) :: rest else p :: mapInsert rest k v

/-- Deletion, modelling Go's `delete(m, k)`. -/
def mapErase {α : Type} (m : List (Nat × α)) (k : Nat) : List (Nat × α) :=
  match m with
  | [] => []
  | p :: rest => if p.1 = k then mapErase rest k else p :: mapErase rest k

/-- The effect of `mapErase` on the key sequence of a map, used to compare
the key sequences of the two global maps. -/
def keysErase (l : List Nat) (k : Nat) : List Nat :=
  match l with
  | [] => []
  | a :: rest => if a = k then keysErase rest k else a :: keysErase rest k

variable {T : Type} [DecidableEq T]

/-- Lookup in a cache entry (the inner `map[any]int`), Go's
`memoryHashMap[key][val]` comma-ok read. -/
def entryLookup (e : List (T × Nat)) (v : T) : Option Nat :=
  match e with
  | [] => none
  | p :: rest => if p.1 = v then some p.2 else entryLookup rest v

/-- Overwriting insertion into a cache entry, Go's `memoryHashMap[key][arr[i]] = i`. -/
def entryInsert (e : List (T × Nat)) (v : T) (i : Nat) : List (T × Nat) :=
  match e with
  | [] => [(v, i)]
  | p :: rest => if p.1 = v then (v, i) :: rest else p :: entryInsert rest v i

/-- The build loop of `IndexOf` starting at position `n`:
`for i := len(arr) - 1; i >= 0; i-- { memoryHashMap[key][arr[i]] = i }`.
The innermost (first executed) write is for the last element; the write for
position `n` itself happens last and therefore overwrites any duplicate. -/
def buildFrom (n : Nat) : List T → List (T × Nat)
  | [] => []
  | a :: rest => entryInsert (buildFrom (n + 1) rest) a n

/-- The cache entry built for `arr` by the Go loop (scan from last index down
to index 0, each write overwriting earlier writes for the same value). -/
def buildEntry (arr : List T) : List (T × Nat) :=
  buildFrom 0 arr

/-- The naive left-to-right linear scan that the spec uses as its reference
oracle: position of the first occurrence of `v` in `arr`, if any. -/
def firstIdx (arr : List T) (v : T) : Option Nat :=
  match arr with
  | [] => none
  | a :: rest => if a = v then some 0 else (firstIdx rest v).map (fun i => i + 1)

/-- Reference result of the naive scan with the Go sentinel `-1` for "not found". -/
def naiveIndexOf (arr : List T) (v : T) : Int :=
  match firstIdx arr v with
  | some i => Int.ofNat i
  | none => -1

/-- The process-wide state of the cache: the pair of global maps
`memoryHashMap` and `memoryHashCounter` declared at the top of `slice.go`. -/
structure CacheState (T : Type) where
  memoryHashMap : List (Nat × List (T × Nat))
  memoryHashCounter : List (Nat × Nat)

/-- The initial state of the globals: both maps empty. -/
def initState : CacheState T :=
  CacheState.mk [] []

/-- The entry store and the access-counter map track the same keys, in the
same iteration order. -/
def KeysEq (st : CacheState T) : Prop :=
  st.memoryHashMap.map Prod.fst = st.memoryHashCounter.map Prod.fst

/-- Invariant of every state reachable from `initState`: the two maps track
the same keys, keys are not duplicated inside a map, and every tracked
counter has been incremented at least once. -/
def WellFormed (st : CacheState T) : Prop :=
  KeysEq st ∧ (st.memoryHashMap.map Prod.fst).Nodup ∧ ∀ p ∈ st.memoryHashCounter, 1 ≤ p.2

instance (st : CacheState T) : Decidable (WellFormed st) := by
  unfold WellFormed KeysEq
  infer_instance

/-- Go's `memoryHashCounter[key]++`: a missing counter starts from the zero
value. -/
def counterIncr (m : List (Nat × Nat)) (k : Nat) : List (Nat × Nat) :=
  mapInsert m k ((mapLookup m k).getD 0 + 1)

/-- The double-checked build step of `IndexOf`: if `memoryHashMap[key]` is
nil the entry is created and populated by the backwards scan, otherwise the
state is untouched.  (Sequentially the two nil checks of the source collapse
into one.) -/
def buildPhase (key : Nat) (arr : List T) (st : CacheState T) : CacheState T :=
  match mapLookup st.memoryHashMap key with
  | none => CacheState.mk (mapInsert st.memoryHashMap key (buildEntry arr)) st.memoryHashCounter
  | some _ => st

/-- The counter update step of `IndexOf`. -/
def incrPhase (key : Nat) (st : CacheState T) : CacheState T :=
  CacheState.mk st.memoryHashMap (counterIncr st.memoryHashCounter key)

/-- State of the globals after the build and counter-update steps of a call,
just before the value lookup. -/
def lookupState (key : Nat) (arr : List T) (st : CacheState T) : CacheState T :=
  incrPhase key (buildPhase key arr st)

/-- The victim-selection loop of `IndexOf`:
`for k, v := range memoryHashCounter { if k == key { continue };
if minVal == 0 || v < minVal { minKey = k; minVal = v } }`.
The accumulator is Go's `(minKey, minVal)` pair, zero-initialised; `none`
stands for the empty-string `minKey`, which never names a tracked key. -/
def selectVictim (key : Nat) : List (Nat × Nat) → Option Nat × Nat → Option Nat × Nat
  | [], acc => acc
  | p :: rest, acc =>
      if p.1 = key then selectVictim key rest acc
      else if acc.2 = 0 ∨ p.2 < acc.2 then selectVictim key rest (some p.1, p.2)
      else selectVictim key rest acc

/-- The eviction step of `IndexOf`: delete the selected key from both maps
(`delete(memoryHashMap, minKey); delete(memoryHashCounter, minKey)`).  When
no key was selected, `minKey` is Go's zero string, which is never tracked,
and both deletes are no-ops. -/
def evict (st : CacheState T) (key : Nat) : CacheState T :=
  match (selectVictim key st.memoryHashCounter (none, 0)).1 with
  | none => st
  | some k => CacheState.mk (mapErase st.memoryHashMap k) (mapErase st.memoryHashCounter k)

/-- Shallow embedding of `IndexOf[T comparable](arr []T, val T) int`
(`slice.go` lines 1084-1146) as a state transformer over the global maps.
`key` is the formatted base address `fmt.Sprintf("%p", arr)`.  The memory
limit is the local constant `limit := 10`; the eviction check runs only in
the branch where the value was found, exactly as in the source. -/
def IndexOf (key : Nat) (arr : List T) (val : T) (st : CacheState T) : Int × CacheState T :=
  match entryLookup ((mapLookup (lookupState key arr st).memoryHashMap key).getD []) val with
  | some index =>
      (Int.ofNat index,
        if 10 < (lookupState key arr st).memoryHashMap.length then
          evict (lookupState key arr st) key
        else lookupState key arr st)
  | none => (-1, lookupState key arr st)

/-- Run a sequence of `IndexOf` calls (key, slice contents, queried value),
threading the global state. -/
def callSeq : List (Nat × List T × T) → CacheState T → CacheState T
  | [], st => st
  | c :: rest, st => callSeq rest (IndexOf c.1 c.2.1 c.2.2 st).2

/-- A Go slice header as far as `IndexOf` observes it: the base address of the
backing storage and the length.  (The capacity is never read.) -/
structure GoSlice where
  addr : Nat
  len : Nat

/-- The identity key derived by `fmt.Sprintf("%p", arr)`: it formats only the
base address of the backing array — the length and the contents of the slice
do not enter the key. -/
def keyOf (s : GoSlice) : Nat :=
  s.addr

/-- The elements a slice header denotes inside a memory `mem` (addresses are
list positions).  `IndexOf` reads `arr[i]` exactly at these addresses. -/
def readSlice [Inhabited T] (mem : List T) (s : GoSlice) : List T :=
  (List.range s.len).map (fun i => mem.getD (s.addr + i) default)

/-- Memory-level embedding of an `IndexOf` call: the memory is threaded
through the call.  The body of the Go function contains only reads of `arr`
(in the key derivation and in the build loop) and never a store to it, so
the memory component of the result is the input memory. -/
def IndexOfMem [Inhabited T] (mem : List T) (s : GoSlice) (val : T) (st : CacheState T) :
    Int × List T × CacheState T :=
  ((IndexOf (keyOf s) (readSlice mem s) val st).1, mem,
    (IndexOf (keyOf s) (readSlice mem s) val st).2)

/-- Ten calls against ten distinct one-element slices, each querying a value
the slice contains. -/
def hitCalls : List (Nat × List Int × Int) :=
  [(0, [0], 0), (1, [1], 1), (2, [2], 2), (3, [3], 3), (4, [4], 4),
   (5, [5], 5), (6, [6], 6), (7, [7], 7), (8, [8], 8), (9, [9], 9)]

/-- Eleven calls against eleven distinct one-element slices, each querying
the value `99`, which none of them contains. -/
def missCalls : List (Nat × List Int × Int) :=
  [(0, [0], 99), (1, [1], 99), (2, [2], 99), (3, [3], 99), (4, [4], 99),
   (5, [5], 99), (6, [6], 99), (7, [7], 99), (8, [8], 99), (9, [9], 99), (10, [10], 99)]

theorem mapLookup_mapInsert_self {α : Type} (m : List (Nat × α)) (k : Nat) (v : α) :
    mapLookup (mapInsert m k v) k = some v := by
  induction m with
  | nil => simp [mapInsert, mapLookup]
  | cons p rest ih =>
      by_cases hp : p.1 = k
      · simp [mapInsert, hp, mapLookup]
      · simp [mapInsert, hp, mapLookup, ih]

theorem mapLookup_mapInsert_ne {α : Type} (m : List (Nat × α)) (k k2 : Nat) (v : α)
    (h : ¬ k2 = k) : mapLookup (mapInsert m k v) k2 = mapLookup m k2 := by
  have h' : ¬ k = k2 := fun hh => h hh.symm
  induction m with
  | nil => simp [mapInsert, mapLookup, h']
  | cons p rest ih =>
      by_cases hp : p.1 = k
      · have hp2 : ¬ p.1 = k2 := by rw [hp]; exact h'
        simp [mapInsert, hp, mapLookup, h', hp2]
      · by_cases hp2 : p.1 = k2 <;> simp [mapInsert, hp, mapLookup, hp2, h, h', ih]

theorem mapLookup_eq_none_iff {α : Type} (m : List (Nat × α)) (k : Nat) :
    mapLookup m k = none ↔ ¬ k ∈ m.map Prod.fst := by
  induction m with
  | nil => simp [mapLookup]
  | cons p rest ih =>
      by_cases hp : p.1 = k
      · simp [mapLookup, hp]
      · have hp2 : ¬ k = p.1 := fun hh => hp hh.symm
        simp [mapLookup, hp, hp2, ih]

theorem mem_keys_of_mapLookup {α : Type} (m : List (Nat × α)) (k : Nat) (v : α)
    (h : mapLookup m k = some v) : k ∈ m.map Prod.fst := by
  by_contra hk
  rw [(mapLookup_eq_none_iff m k).mpr hk] at h
  cases h

theorem mapLookup_isSome_iff {α : Type} (m : List (Nat × α)) (k : Nat) :
    (mapLookup m k).isSome = true ↔ k ∈ m.map Prod.fst := by
  rcases h : mapLookup m k with _ | v
  · simp only [Option.isSome_none, Bool.false_eq_true, false_iff]
    exact (mapLookup_eq_none_iff m k).mp h
  · simp only [Option.isSome_some, true_iff]
    exact mem_keys_of_mapLookup m k v h

theorem mem_of_mapLookup {α : Type} (m : List (Nat × α)) (k : Nat) (v : α)
    (h : mapLookup m k = some v) : (k, v) ∈ m := by
  induction m with
  | nil => simp [mapLookup] at h
  | cons p rest ih =>
      by_cases hp : p.1 = k
      · rw [mapLookup, if_pos hp] at h
        have hpv : p = (k, v) := by
          rcases p with ⟨pk, pv⟩
          simp at hp
          simp at h
          simp [hp, h]
        rw [← hpv]
        exact List.mem_cons_self p rest
      · rw [mapLookup, if_neg hp] at h
        exact List.mem_cons_of_mem p (ih h)

theorem mapLookup_of_mem {α : Type} (m : List (Nat × α)) (k : Nat) (v : α)
    (hnd : (m.map Prod.fst).Nodup) (h : (k, v) ∈ m) : mapLookup m k = some v := by
  induction m with
  | nil => simp at h
  | cons p rest ih =>
      rcases List.mem_cons.mp h with h1 | h1
      · rw [← h1, mapLookup, if_pos rfl]
      · have hk : k ∈ rest.map Prod.fst := List.mem_map.mpr ⟨(k, v), h1, rfl⟩
        rw [List.map_cons, List.nodup_cons] at hnd
        have hp : ¬ p.1 = k := fun hh => hnd.1 (hh ▸ hk)
        rw [mapLookup, if_neg hp]
        exact ih hnd.2 h1

theorem keys_mapInsert_mem {α : Type} (m : List (Nat × α)) (k : Nat) (v : α)
    (h : k ∈ m.map Prod.fst) : (mapInsert m k v).map Prod.fst = m.map Prod.fst := by
  induction m with
  | nil => simp at h
  | cons p rest ih =>
      by_cases hp : p.1 = k
      · simp [mapInsert, hp]
      · have h2 : k ∈ rest.map Prod.fst := by
          simp only [List.map_cons, List.mem_cons] at h
          rcases h with h1 | h1
          · exact absurd h1.symm hp
          · exact h1
        simp [mapInsert, hp, ih h2]

theorem keys_mapInsert_fresh {α : Type} (m : List (Nat × α)) (k : Nat) (v : α)
    (h : ¬ k ∈ m.map Prod.fst) :
    (mapInsert m k v).map Prod.fst = m.map Prod.fst ++ [k] := by
  induction m with
  | nil => simp [mapInsert]
  | cons p rest ih =>
      have hp : ¬ p.1 = k := fun hh => h (by simp [hh])
      have h2 : ¬ k ∈ rest.map Prod.fst := fun hh => h (by simp [hh])
      simp [mapInsert, hp, ih h2]

theorem length_mapInsert_fresh {α : Type} (m : List (Nat × α)) (k : Nat) (v : α)
    (h : mapLookup m k = none) : (mapInsert m k v).length = m.length + 1 := by
  have h2 := keys_mapInsert_fresh m k v ((mapLookup_eq_none_iff m k).mp h)
  have h3 := congrArg List.length h2
  simpa using h3

theorem mem_mapInsert {α : Type} (m : List (Nat × α)) (k : Nat) (v : α) (p : Nat × α)
    (h : p ∈ mapInsert m k v) : p = (k, v) ∨ p ∈ m := by
  induction m with
  | nil => simp [mapInsert] at h; exact Or.inl h
  | cons q rest ih =>
      by_cases hq : q.1 = k
      · rw [mapInsert, if_pos hq] at h
        rcases List.mem_cons.mp h with h1 | h1
        · exact Or.inl h1
        · exact Or.inr (List.mem_cons_of_mem q h1)
      · rw [mapInsert, if_neg hq] at h
        rcases List.mem_cons.mp h with h1 | h1
        · exact Or.inr (h1 ▸ List.mem_cons_self q rest)
        · rcases ih h1 with h2 | h2
          · exact Or.inl h2
          · exact Or.inr (List.mem_cons_of_mem q h2)

theorem keys_mapErase {α : Type} (m : List (Nat × α)) (k : Nat) :
    (mapErase m k).map Prod.fst = keysErase (m.map Prod.fst) k := by
  induction m with
  | nil => simp [mapErase, keysErase]
  | cons p rest ih =>
      by_cases hp : p.1 = k <;> simp [mapErase, keysErase, hp, ih]

theorem mapLookup_mapErase_self {α : Type} (m : List (Nat × α)) (k : Nat) :
    mapLookup (mapErase m k) k = none := by
  induction m with
  | nil => simp [mapErase, mapLookup]
  | cons p rest ih =>
      by_cases hp : p.1 = k <;> simp [mapErase, hp, mapLookup, ih]

theorem mapLookup_mapErase_ne {α : Type} (m : List (Nat × α)) (k k2 : Nat)
    (h : ¬ k2 = k) : mapLookup (mapErase m k) k2 = mapLookup m k2 := by
  have h2 : ¬ k = k2 := fun hh => h hh.symm
  induction m with
  | nil => simp [mapErase]
  | cons p rest ih =>
      by_cases hp : p.1 = k
      · have hp2 : ¬ p.1 = k2 := by rw [hp]; exact h2
        simp [mapErase, hp, mapLookup, hp2, h, h2, ih]
      · by_cases hp2 : p.1 = k2 <;> simp [mapErase, hp, mapLookup, hp2, h, h2, ih]

theorem mem_of_mem_mapErase {α : Type} (m : List (Nat × α)) (k : Nat) (p : Nat × α)
    (h : p ∈ mapErase m k) : p ∈ m := by
  induction m with
  | nil => simp [mapErase] at h
  | cons q rest ih =>
      by_cases hq : q.1 = k
      · rw [mapErase, if_pos hq] at h
        exact List.mem_cons_of_mem q (ih h)
      · rw [mapErase, if_neg hq] at h
        rcases List.mem_cons.mp h with h1 | h1
        · exact h1 ▸ List.mem_cons_self q rest
        · exact List.mem_cons_of_mem q (ih h1)

theorem mem_of_mem_keysErase (l : List Nat) (k x : Nat) (h : x ∈ keysErase l k) : x ∈ l := by
  induction l with
  | nil => simp [keysErase] at h
  | cons a rest ih =>
      by_cases ha : a = k
      · rw [keysErase, if_pos ha] at h
        exact List.mem_cons_of_mem a (ih h)
      · rw [keysErase, if_neg ha] at h
        rcases List.mem_cons.mp h with h1 | h1
        · exact h1 ▸ List.mem_cons_self a rest
        · exact List.mem_cons_of_mem a (ih h1)

theorem nodup_keysErase (l : List Nat) (k : Nat) (hnd : l.Nodup) : (keysErase l k).Nodup := by
  induction l with
  | nil => simp [keysErase]
  | cons a rest ih =>
      rw [List.nodup_cons] at hnd
      by_cases ha : a = k
      · rw [keysErase, if_pos ha]
        exact ih hnd.2
      · rw [keysErase, if_neg ha, List.nodup_cons]
        exact ⟨fun hmem => hnd.1 (mem_of_mem_keysErase rest k a hmem), ih hnd.2⟩

theorem keysErase_of_not_mem (l : List Nat) (k : Nat) (h : ¬ k ∈ l) : keysErase l k = l := by
  induction l with
  | nil => rfl
  | cons a rest ih =>
      have ha : ¬ a = k := fun hh => h (by rw [hh]; exact List.mem_cons_self k rest)
      have h2 : ¬ k ∈ rest := fun hh => h (List.mem_cons_of_mem a hh)
      rw [keysErase, if_neg ha, ih h2]

theorem length_keysErase_mem (l : List Nat) (k : Nat) (hnd : l.Nodup) (hk : k ∈ l) :
    (keysErase l k).length = l.length - 1 := by
  induction l with
  | nil => simp at hk
  | cons a rest ih =>
      rw [List.nodup_cons] at hnd
      by_cases ha : a = k
      · rw [keysErase, if_pos ha, keysErase_of_not_mem rest k (ha ▸ hnd.1)]
        simp
      · have h1 : k ∈ rest := by
          rcases List.mem_cons.mp hk with h2 | h2
          · exact absurd h2.symm ha
          · exact h2
        have hpos : 0 < rest.length := List.length_pos.mpr (List.ne_nil_of_mem h1)
        rw [keysErase, if_neg ha]
        simp only [List.length_cons, ih hnd.2 h1]
        omega

theorem length_mapErase_mem {α : Type} (m : List (Nat × α)) (k : Nat)
    (hnd : (m.map Prod.fst).Nodup) (hk : k ∈ m.map Prod.fst) :
    (mapErase m k).length = m.length - 1 := by
  have h1 : (mapErase m k).length = ((mapErase m k).map Prod.fst).length := by simp
  rw [h1, keys_mapErase, length_keysErase_mem _ _ hnd hk]
  simp

theorem entryLookup_entryInsert (e : List (T × Nat)) (a : T) (n : Nat) (v : T) :
    entryLookup (entryInsert e a n) v = if a = v then some n else entryLookup e v := by
  induction e with
  | nil => simp [entryInsert, entryLookup]
  | cons p rest ih =>
      by_cases hpa : p.1 = a
      · by_cases hav : a = v
        · simp [entryInsert, entryLookup, hpa, hav]
        · have hpv : ¬ p.1 = v := by rw [hpa]; exact hav
          simp [entryInsert, entryLookup, hpa, hav, hpv]
      · by_cases hpv : p.1 = v
        · have hav : ¬ a = v := fun h => hpa (by rw [hpv, h])
          have hva : ¬ v = a := fun h => hav h.symm
          simp [entryInsert, entryLookup, hpa, hpv, hav, hva]
        · simp [entryInsert, entryLookup, hpa, hpv, ih]

theorem entryLookup_buildFrom (arr : List T) (n : Nat) (v : T) :
    entryLookup (buildFrom n arr) v = (firstIdx arr v).map (fun i => i + n) := by
  induction arr generalizing n with
  | nil => simp [buildFrom, entryLookup, firstIdx]
  | cons a rest ih =>
      by_cases hav : a = v
      · simp [buildFrom, entryLookup_entryInsert, hav, firstIdx]
      · cases hfi : firstIdx rest v with
        | none => simp [buildFrom, entryLookup_entryInsert, hav, firstIdx, ih, hfi]
        | some i =>
            simp [buildFrom, entryLookup_entryInsert, hav, firstIdx, ih, hfi]
            omega

theorem entryLookup_buildEntry (arr : List T) (v : T) :
    entryLookup (buildEntry arr) v = firstIdx arr v := by
  rw [buildEntry, entryLookup_buildFrom]
  cases firstIdx arr v <;> simp

theorem selectVictim_mem (key : Nat) (l : List (Nat × Nat)) (acc : Option Nat × Nat) :
    selectVictim key l acc = acc ∨
      ∃ k c, selectVictim key l acc = (some k, c) ∧ ¬ k = key ∧ (k, c) ∈ l := by
  induction l generalizing acc with
  | nil => exact Or.inl rfl
  | cons p rest ih =>
      by_cases hp : p.1 = key
      · rcases ih acc with h | ⟨k, c, h1, h2, h3⟩
        · exact Or.inl (by simp [selectVictim, hp, h])
        · exact Or.inr ⟨k, c, by simp [selectVictim, hp, h1], h2, List.mem_cons_of_mem p h3⟩
      · by_cases hc : acc.2 = 0 ∨ p.2 < acc.2
        · rcases ih (some p.1, p.2) with h | ⟨k, c, h1, h2, h3⟩
          · refine Or.inr ⟨p.1, p.2, ?_, hp, ?_⟩
            · simp [selectVictim, hp, hc, h]
            · exact (by simp : (p.1, p.2) = p) ▸ List.mem_cons_self p rest
          · exact Or.inr ⟨k, c, by simp [selectVictim, hp, hc, h1], h2, List.mem_cons_of_mem p h3⟩
        · rcases ih acc with h | ⟨k, c, h1, h2, h3⟩
          · exact Or.inl (by simp [selectVictim, hp, hc, h])
          · exact Or.inr ⟨k, c, by simp [selectVictim, hp, hc, h1], h2, List.mem_cons_of_mem p h3⟩

theorem selectVictim_le_acc (key : Nat) (l : List (Nat × Nat)) (acc : Option Nat × Nat)
    (hacc : 1 ≤ acc.2) (hl : ∀ p ∈ l, 1 ≤ p.2) :
    (selectVictim key l acc).2 ≤ acc.2 := by
  induction l generalizing acc with
  | nil => simp [selectVictim]
  | cons p rest ih =>
      have hp2 : 1 ≤ p.2 := hl p (List.mem_cons_self p rest)
      have hrest : ∀ q ∈ rest, 1 ≤ q.2 := fun q hq => hl q (List.mem_cons_of_mem p hq)
      by_cases hp : p.1 = key
      · simpa [selectVictim, hp] using ih acc hacc hrest
      · by_cases hc : acc.2 = 0 ∨ p.2 < acc.2
        · have hlt : p.2 < acc.2 := by
            rcases hc with h | h
            · omega
            · exact h
          have h2 := ih (some p.1, p.2) hp2 hrest
          have h3 : (selectVictim key (p :: rest) acc).2 = (selectVictim key rest (some p.1, p.2)).2 := by
            simp [selectVictim, hp, hc]
          rw [h3]
          exact le_trans h2 (le_of_lt hlt)
        · simpa [selectVictim, hp, hc] using ih acc hacc hrest

theorem selectVictim_min (key : Nat) (l : List (Nat × Nat)) (acc : Option Nat × Nat)
    (hl : ∀ p ∈ l, 1 ≤ p.2) (hacc : acc = (none, 0) ∨ 1 ≤ acc.2) :
    ∀ p ∈ l, ¬ p.1 = key → (selectVictim key l acc).2 ≤ p.2 := by
  induction l generalizing acc with
  | nil =>
      intro p hp
      simp at hp
  | cons q rest ih =>
      intro p hp hpk
      have hq2 : 1 ≤ q.2 := hl q (List.mem_cons_self q rest)
      have hrest : ∀ r ∈ rest, 1 ≤ r.2 := fun r hr => hl r (List.mem_cons_of_mem q hr)
      by_cases hq : q.1 = key
      · rcases List.mem_cons.mp hp with h1 | h1
        · exact absurd (h1 ▸ hq) hpk
        · simpa [selectVictim, hq] using ih acc hrest hacc p h1 hpk
      · by_cases hc : acc.2 = 0 ∨ q.2 < acc.2
        · rcases List.mem_cons.mp hp with h1 | h1
          · have h2 := selectVictim_le_acc key rest (some q.1, q.2) hq2 hrest
            have h3 : (selectVictim key (q :: rest) acc).2 = (selectVictim key rest (some q.1, q.2)).2 := by
              simp [selectVictim, hq, hc]
            rw [h3, h1]
            exact h2
          · simpa [selectVictim, hq, hc] using ih (some q.1, q.2) hrest (Or.inr hq2) p h1 hpk
        · have hacc1 : 1 ≤ acc.2 := by
            rcases hacc with h | h
            · exact absurd (Or.inl (by rw [h])) hc
            · exact h
          have hle : acc.2 ≤ q.2 := by
            by_contra hlt
            exact hc (Or.inr (by omega))
          rcases List.mem_cons.mp hp with h1 | h1
          · have h2 := selectVictim_le_acc key rest acc hacc1 hrest
            have h3 : (selectVictim key (q :: rest) acc).2 = (selectVictim key rest acc).2 := by
              simp [selectVictim, hq, hc]
            rw [h3, h1]
            exact le_trans h2 hle
          · simpa [selectVictim, hq, hc] using ih acc hrest (Or.inr hacc1) p h1 hpk

theorem selectVictim_isSome_of_acc (key : Nat) (l : List (Nat × Nat)) (acc : Option Nat × Nat)
    (k0 : Nat) (h : acc.1 = some k0) : ∃ k1, (selectVictim key l acc).1 = some k1 := by
  induction l generalizing acc k0 with
  | nil => exact ⟨k0, by simpa [selectVictim] using h⟩
  | cons p rest ih =>
      by_cases hp : p.1 = key
      · simpa [selectVictim, hp] using ih acc k0 h
      · by_cases hc : acc.2 = 0 ∨ p.2 < acc.2
        · simpa [selectVictim, hp, hc] using ih (some p.1, p.2) p.1 rfl
        · simpa [selectVictim, hp, hc] using ih acc k0 h

theorem selectVictim_some (key : Nat) (l : List (Nat × Nat))
    (h : ∃ p ∈ l, ¬ p.1 = key) :
    ∃ k1, (selectVictim key l (none, 0)).1 = some k1 := by
  induction l with
  | nil =>
      rcases h with ⟨p, hp, _⟩
      simp at hp
  | cons q rest ih =>
      by_cases hq : q.1 = key
      · have h2 : ∃ p ∈ rest, ¬ p.1 = key := by
          rcases h with ⟨p, hp, hpk⟩
          rcases List.mem_cons.mp hp with h1 | h1
          · exact absurd (h1 ▸ hq) hpk
          · exact ⟨p, h1, hpk⟩
        simpa [selectVictim, hq] using ih h2
      · have hc : (0 : Nat) = 0 ∨ q.2 < 0 := Or.inl rfl
        have h3 : selectVictim key (q :: rest) ((none : Option Nat), (0 : Nat)) =
            selectVictim key rest (some q.1, q.2) := by
          simp [selectVictim, hq]
        rw [h3]
        exact selectVictim_isSome_of_acc key rest (some q.1, q.2) q.1 rfl

theorem lookupState_map_fresh (key : Nat) (arr : List T) (st : CacheState T)
    (h : mapLookup st.memoryHashMap key = none) :
    (lookupState key arr st).memoryHashMap = mapInsert st.memoryHashMap key (buildEntry arr) := by
  simp [lookupState, incrPhase, buildPhase, h]

theorem lookupState_map_warm (key : Nat) (arr : List T) (st : CacheState T) (e : List (T × Nat))
    (h : mapLookup st.memoryHashMap key = some e) :
    (lookupState key arr st).memoryHashMap = st.memoryHashMap := by
  simp [lookupState, incrPhase, buildPhase, h]

theorem lookupState_counter (key : Nat) (arr : List T) (st : CacheState T) :
    (lookupState key arr st).memoryHashCounter = counterIncr st.memoryHashCounter key := by
  cases h : mapLookup st.memoryHashMap key <;> simp [lookupState, incrPhase, buildPhase, h]

theorem lookupState_entry (key : Nat) (arr : List T) (st : CacheState T)
    (h : mapLookup st.memoryHashMap key = none ∨
         mapLookup st.memoryHashMap key = some (buildEntry arr)) :
    mapLookup (lookupState key arr st).memoryHashMap key = some (buildEntry arr) := by
  rcases h with h | h
  · rw [lookupState_map_fresh key arr st h, mapLookup_mapInsert_self]
  · rw [lookupState_map_warm key arr st _ h, h]

theorem wf_lookupState (key : Nat) (arr : List T) (st : CacheState T) (hwf : WellFormed st) :
    WellFormed (lookupState key arr st) := by
  obtain ⟨hkeys, hnd, hcnt⟩ := hwf
  cases h0 : mapLookup st.memoryHashMap key with
  | none =>
      have hkmem : ¬ key ∈ st.memoryHashMap.map Prod.fst := (mapLookup_eq_none_iff _ _).mp h0
      have hkmem2 : ¬ key ∈ st.memoryHashCounter.map Prod.fst := by
        rw [KeysEq] at hkeys
        rw [← hkeys]
        exact hkmem
      have hcnone : mapLookup st.memoryHashCounter key = none :=
        (mapLookup_eq_none_iff _ _).mpr hkmem2
      have hstate : lookupState key arr st =
          CacheState.mk (mapInsert st.memoryHashMap key (buildEntry arr))
            (mapInsert st.memoryHashCounter key 1) := by
        simp [lookupState, incrPhase, buildPhase, h0, counterIncr, hcnone]
      rw [hstate]
      refine ⟨?_, ?_, ?_⟩
      · show (mapInsert st.memoryHashMap key (buildEntry arr)).map Prod.fst =
          (mapInsert st.memoryHashCounter key 1).map Prod.fst
        rw [keys_mapInsert_fresh _ _ _ hkmem, keys_mapInsert_fresh _ _ _ hkmem2]
        rw [KeysEq] at hkeys
        rw [hkeys]
      · show ((mapInsert st.memoryHashMap key (buildEntry arr)).map Prod.fst).Nodup
        rw [keys_mapInsert_fresh _ _ _ hkmem, List.nodup_append]
        refine ⟨hnd, List.nodup_singleton key, ?_⟩
        intro x hx hx2
        rw [List.mem_singleton] at hx2
        exact hkmem (hx2 ▸ hx)
      · intro p hp
        rcases mem_mapInsert _ _ _ _ hp with h1 | h1
        · rw [h1]
        · exact hcnt p h1
  | some e =>
      have hkmem : key ∈ st.memoryHashMap.map Prod.fst := mem_keys_of_mapLookup _ _ _ h0
      have hkmem2 : key ∈ st.memoryHashCounter.map Prod.fst := by
        rw [KeysEq] at hkeys
        rw [← hkeys]
        exact hkmem
      have hstate : lookupState key arr st =
          CacheState.mk st.memoryHashMap (counterIncr st.memoryHashCounter key) := by
        simp [lookupState, incrPhase, buildPhase, h0]
      rw [hstate]
      refine ⟨?_, hnd, ?_⟩
      · show st.memoryHashMap.map Prod.fst = (counterIncr st.memoryHashCounter key).map Prod.fst
        rw [counterIncr, keys_mapInsert_mem _ _ _ hkmem2]
        exact hkeys
      · intro p hp
        rcases mem_mapInsert _ _ _ _ (by simpa [counterIncr] using hp) with h1 | h1
        · rw [h1]
          omega
        · exact hcnt p h1

theorem wf_evict (st : CacheState T) (key : Nat) (hwf : WellFormed st) :
    WellFormed (evict st key) := by
  obtain ⟨hkeys, hnd, hcnt⟩ := hwf
  cases hsel : (selectVictim key st.memoryHashCounter (none, 0)).1 with
  | none =>
      have hstate : evict st key = st := by simp [evict, hsel]
      rw [hstate]
      exact ⟨hkeys, hnd, hcnt⟩
  | some k =>
      have hstate : evict st key =
          CacheState.mk (mapErase st.memoryHashMap k) (mapErase st.memoryHashCounter k) := by
        simp [evict, hsel]
      rw [hstate]
      refine ⟨?_, ?_, ?_⟩
      · show (mapErase st.memoryHashMap k).map Prod.fst =
          (mapErase st.memoryHashCounter k).map Prod.fst
        rw [keys_mapErase, keys_mapErase]
        rw [KeysEq] at hkeys
        rw [hkeys]
      · show ((mapErase st.memoryHashMap k).map Prod.fst).Nodup
        rw [keys_mapErase]
        exact nodup_keysErase _ _ hnd
      · intro p hp
        exact hcnt p (mem_of_mem_mapErase _ _ _ hp)

theorem evict_spec (st : CacheState T) (key : Nat) (hwf : WellFormed st)
    (hsz : 10 < st.memoryHashMap.length) :
    ∃ k c, ¬ k = key ∧ mapLookup st.memoryHashCounter k = some c ∧
      (∀ k2 c2, ¬ k2 = key → mapLookup st.memoryHashCounter k2 = some c2 → c ≤ c2) ∧
      evict st key =
        CacheState.mk (mapErase st.memoryHashMap k) (mapErase st.memoryHashCounter k) ∧
      k ∈ st.memoryHashMap.map Prod.fst := by
  obtain ⟨hkeys, hnd, hcnt⟩ := hwf
  rw [KeysEq] at hkeys
  have hndc : (st.memoryHashCounter.map Prod.fst).Nodup := hkeys ▸ hnd
  have hlen : st.memoryHashMap.length = st.memoryHashCounter.length := by
    have h1 := congrArg List.length hkeys
    simpa using h1
  have hcnt1 : ∀ p ∈ st.memoryHashCounter, 1 ≤ p.2 := hcnt
  have hex : ∃ p ∈ st.memoryHashCounter, ¬ p.1 = key := by
    by_contra hall
    push_neg at hall
    cases hc1 : st.memoryHashCounter with
    | nil =>
        rw [hc1] at hlen
        simp only [List.length_nil] at hlen
        omega
    | cons p rest =>
        cases hc2 : rest with
        | nil =>
            rw [hc1, hc2] at hlen
            simp only [List.length_cons, List.length_nil] at hlen
            omega
        | cons q rest2 =>
            have hp := hall p (by rw [hc1]; exact List.mem_cons_self p rest)
            have hq := hall q (by
              rw [hc1, hc2]
              exact List.mem_cons_of_mem p (List.mem_cons_self q rest2))
            rw [hc1, hc2] at hndc
            simp only [List.map_cons, List.nodup_cons, List.mem_cons] at hndc
            exact hndc.1 (Or.inl (by rw [hp, hq]))
  obtain ⟨k1, hsel⟩ := selectVictim_some key st.memoryHashCounter hex
  rcases selectVictim_mem key st.memoryHashCounter (none, 0) with hres | ⟨k, c, hres, hk, hmem⟩
  · rw [hres] at hsel
    cases hsel
  · have hsel1 : (selectVictim key st.memoryHashCounter (none, 0)).1 = some k := by rw [hres]
    refine ⟨k, c, hk, ?_, ?_, ?_, ?_⟩
    · exact mapLookup_of_mem _ _ _ hndc hmem
    · intro k2 c2 hk2 hl2
      have hmem2 := mem_of_mapLookup _ _ _ hl2
      have hmin := selectVictim_min key st.memoryHashCounter (none, 0) hcnt1
        (Or.inl rfl) (k2, c2) hmem2 hk2
      rw [hres] at hmin
      exact hmin
    · simp [evict, hsel1]
    · have hkc : k ∈ st.memoryHashCounter.map Prod.fst := List.mem_map.mpr ⟨(k, c), hmem, rfl⟩
      rw [hkeys]
      exact hkc

theorem length_evict (st : CacheState T) (key : Nat) (hwf : WellFormed st)
    (hsz : 10 < st.memoryHashMap.length) :
    (evict st key).memoryHashMap.length = st.memoryHashMap.length - 1 := by
  obtain ⟨k, c, hk, hlook, hmin, heq, hmemk⟩ := evict_spec st key hwf hsz
  rw [heq]
  exact length_mapErase_mem _ _ hwf.2.1 hmemk

theorem evict_lookup_key (st : CacheState T) (key : Nat) :
    mapLookup (evict st key).memoryHashMap key = mapLookup st.memoryHashMap key := by
  rcases selectVictim_mem key st.memoryHashCounter (none, 0) with hres | ⟨k, c, hres, hk, hmem⟩
  · have hsel1 : (selectVictim key st.memoryHashCounter (none, 0)).1 = none := by rw [hres]
    simp [evict, hsel1]
  · have hsel1 : (selectVictim key st.memoryHashCounter (none, 0)).1 = some k := by rw [hres]
    have hne : ¬ key = k := fun hh => hk hh.symm
    simp [evict, hsel1, mapLookup_mapErase_ne _ _ _ hne]

theorem indexOf_run (key : Nat) (arr : List T) (v : T) (st : CacheState T)
    (h : mapLookup st.memoryHashMap key = none ∨
         mapLookup st.memoryHashMap key = some (buildEntry arr)) :
    (IndexOf key arr v st).1 = naiveIndexOf arr v ∧
    mapLookup (IndexOf key arr v st).2.memoryHashMap key = some (buildEntry arr) := by
  have hmap := lookupState_entry key arr st h
  cases hfi : firstIdx arr v with
  | none =>
      have hel : entryLookup
          ((mapLookup (lookupState key arr st).memoryHashMap key).getD []) v = none := by
        rw [hmap]
        simp [entryLookup_buildEntry, hfi]
      constructor
      · simp [IndexOf, hel, naiveIndexOf, hfi]
      · simp [IndexOf, hmap, entryLookup_buildEntry, hfi]
  | some i =>
      have hel : entryLookup
          ((mapLookup (lookupState key arr st).memoryHashMap key).getD []) v = some i := by
        rw [hmap]
        simp [entryLookup_buildEntry, hfi]
      constructor
      · simp [IndexOf, hel, naiveIndexOf, hfi]
      · by_cases hsz : 10 < (lookupState key arr st).memoryHashMap.length
        · simp [IndexOf, hmap, entryLookup_buildEntry, hfi, hsz, evict_lookup_key]
        · simp [IndexOf, hmap, entryLookup_buildEntry, hfi, hsz]

theorem wf_indexOf (key : Nat) (arr : List T) (v : T) (st : CacheState T)
    (hwf : WellFormed st) : WellFormed (IndexOf key arr v st).2 := by
  have hwf2 := wf_lookupState key arr st hwf
  cases hel : entryLookup
      ((mapLookup (lookupState key arr st).memoryHashMap key).getD []) v with
  | none => simpa [IndexOf, hel] using hwf2
  | some i =>
      by_cases hsz : 10 < (lookupState key arr st).memoryHashMap.length
      · simpa [IndexOf, hel, hsz] using wf_evict _ key hwf2
      · simpa [IndexOf, hel, hsz] using hwf2

theorem wf_initState : WellFormed (initState : CacheState T) := by
  refine ⟨rfl, List.nodup_nil, ?_⟩
  intro p hp
  simp [initState] at hp

theorem wf_callSeq (calls : List (Nat × List T × T)) (st : CacheState T)
    (hwf : WellFormed st) : WellFormed (callSeq calls st) := by
  induction calls generalizing st with
  | nil => simpa [callSeq] using hwf
  | cons c rest ih =>
      rw [callSeq]
      exact ih _ (wf_indexOf c.1 c.2.1 c.2.2 st hwf)

/-- Claim C1: for every slice and value, provided the cache holds no stale
entry under the slice's key (the key is untracked, or its entry is the one
built from this very slice — the situation Go guarantees while the key's
backing storage is live and not aliased), `IndexOf` returns the lowest index
at which the value occurs in the slice and `-1` when no such index exists,
agreeing with the naive left-to-right linear scan used as reference oracle,
and an immediately repeated call with the same arguments returns the same
result (idempotence). -/
theorem indexOf_matches_naive_scan (key : Nat) (arr : List T) (v : T) (st : CacheState T)
    (h : mapLookup st.memoryHashMap key = none ∨
         mapLookup st.memoryHashMap key = some (buildEntry arr)) :
    (IndexOf key arr v st).1 = naiveIndexOf arr v ∧
    (IndexOf key arr v (IndexOf key arr v st).2).1 = (IndexOf key arr v st).1 := by
  obtain ⟨h1, h2⟩ := indexOf_run key arr v st h
  obtain ⟨h3, _⟩ := indexOf_run key arr v (IndexOf key arr v st).2 (Or.inr h2)
  exact ⟨h1, by rw [h3, h1]⟩

theorem indexOf_matches_naive_scan_witness :
    (mapLookup (initState : CacheState Int).memoryHashMap 0 = none ∨
     mapLookup (initState : CacheState Int).memoryHashMap 0 = some (buildEntry [5, 3, 5, 8])) ∧
    ((IndexOf 0 [(5 : Int), 3, 5, 8] 3 initState).1 = naiveIndexOf [(5 : Int), 3, 5, 8] 3 ∧
     (IndexOf 0 [(5 : Int), 3, 5, 8] 3 (IndexOf 0 [(5 : Int), 3, 5, 8] 3 initState).2).1 =
       (IndexOf 0 [(5 : Int), 3, 5, 8] 3 initState).1) :=
  ⟨Or.inl rfl, indexOf_matches_naive_scan 0 [(5 : Int), 3, 5, 8] 3 initState (Or.inl rfl)⟩

/-- Claim C6: the cache entry is built by scanning the slice from its last
index down to its first, recording each element's index, so writes made later
in the scan (for earlier positions) overwrite writes made earlier and the
finished mapping holds the lowest index of each duplicated value; in
particular `IndexOf` on the slice `[5, 3, 5, 8]` with value `5` returns the
smallest matching index `0`. -/
theorem buildEntry_keeps_lowest_index :
    (∀ (arr : List T) (v : T), entryLookup (buildEntry arr) v = firstIdx arr v) ∧
    (IndexOf 0 [(5 : Int), 3, 5, 8] 5 initState).1 = 0 :=
  ⟨fun arr v => entryLookup_buildEntry arr v, by decide⟩

/-- Claim C3 counterexample: from the empty cache, `IndexOf` on the empty
slice does return `-1`, but it allocates and registers a cache entry — the
empty mapping — for the empty slice's key, refuting the claim that such a
call never allocates or registers a cache entry. -/
theorem empty_slice_allocates_counterexample :
    (IndexOf 0 ([] : List Int) 7 initState).1 = -1 ∧
    mapLookup (IndexOf 0 ([] : List Int) 7 initState).2.memoryHashMap 0 = some [] ∧
    (IndexOf 0 ([] : List Int) 7 initState).2.memoryHashMap.length = 1 := by
  refine ⟨by decide, by decide, by decide⟩

/-- Claim C3 (amended): for every value, `IndexOf` applied to an empty slice
returns the not-found sentinel `-1`; however, when the key was untracked, the
call does allocate and register a cache entry (the empty mapping) for the
empty sequence, and increments that key's access counter. -/
theorem empty_slice_returns_not_found (key : Nat) (v : T) (st : CacheState T)
    (hfresh : mapLookup st.memoryHashMap key = none) :
    (IndexOf key ([] : List T) v st).1 = -1 ∧
    mapLookup (IndexOf key ([] : List T) v st).2.memoryHashMap key = some [] ∧
    mapLookup (IndexOf key ([] : List T) v st).2.memoryHashCounter key =
      some ((mapLookup st.memoryHashCounter key).getD 0 + 1) := by
  have hmap := lookupState_map_fresh key ([] : List T) st hfresh
  have hel : entryLookup
      ((mapLookup (lookupState key ([] : List T) st).memoryHashMap key).getD []) v = none := by
    rw [hmap, mapLookup_mapInsert_self]
    simp [buildEntry, buildFrom, entryLookup]
  have hfin : (IndexOf key ([] : List T) v st).2 = lookupState key ([] : List T) st := by
    simp [IndexOf, hel]
  refine ⟨?_, ?_, ?_⟩
  · simp [IndexOf, hel]
  · rw [hfin, hmap, mapLookup_mapInsert_self]
    rfl
  · rw [hfin, lookupState_counter, counterIncr, mapLookup_mapInsert_self]

theorem empty_slice_returns_not_found_witness :
    mapLookup (initState : CacheState Int).memoryHashMap 0 = none ∧
    ((IndexOf 0 ([] : List Int) 9 initState).1 = -1 ∧
     mapLookup (IndexOf 0 ([] : List Int) 9 initState).2.memoryHashMap 0 = some [] ∧
     mapLookup (IndexOf 0 ([] : List Int) 9 initState).2.memoryHashCounter 0 =
       some ((mapLookup (initState : CacheState Int).memoryHashCounter 0).getD 0 + 1)) :=
  ⟨rfl, empty_slice_returns_not_found 0 9 initState rfl⟩

/-- Claim C7: querying a value absent from a non-empty slice yields the
not-found sentinel `-1` as a normal result while a cache entry for the slice
is still built and retained, so a subsequent `IndexOf` call on the same slice
for a present value answers with that value's lowest index from the reused
entry, which is unchanged (not rebuilt). -/
theorem absent_value_builds_and_reuses (key : Nat) (arr : List T) (v w : T) (j : Nat)
    (st : CacheState T)
    (hne : ¬ arr = [])
    (hfresh : mapLookup st.memoryHashMap key = none)
    (habs : firstIdx arr v = none)
    (hw : firstIdx arr w = some j) :
    (IndexOf key arr v st).1 = -1 ∧
    mapLookup (IndexOf key arr v st).2.memoryHashMap key = some (buildEntry arr) ∧
    (IndexOf key arr w (IndexOf key arr v st).2).1 = Int.ofNat j ∧
    mapLookup (IndexOf key arr w (IndexOf key arr v st).2).2.memoryHashMap key =
      some (buildEntry arr) := by
  obtain ⟨h1, h2⟩ := indexOf_run key arr v st (Or.inl hfresh)
  obtain ⟨h3, h4⟩ := indexOf_run key arr w (IndexOf key arr v st).2 (Or.inr h2)
  refine ⟨?_, h2, ?_, h4⟩
  · rw [h1]
    simp [naiveIndexOf, habs]
  · rw [h3]
    simp [naiveIndexOf, hw]

theorem absent_value_builds_and_reuses_witness :
    (¬ [(1 : Int), 2, 3] = [] ∧
     mapLookup (initState : CacheState Int).memoryHashMap 0 = none ∧
     firstIdx [(1 : Int), 2, 3] 9 = none ∧
     firstIdx [(1 : Int), 2, 3] 2 = some 1) ∧
    ((IndexOf 0 [(1 : Int), 2, 3] 9 initState).1 = -1 ∧
     mapLookup (IndexOf 0 [(1 : Int), 2, 3] 9 initState).2.memoryHashMap 0 =
       some (buildEntry [1, 2, 3]) ∧
     (IndexOf 0 [(1 : Int), 2, 3] 2 (IndexOf 0 [(1 : Int), 2, 3] 9 initState).2).1 =
       Int.ofNat 1 ∧
     mapLookup (IndexOf 0 [(1 : Int), 2, 3] 2
         (IndexOf 0 [(1 : Int), 2, 3] 9 initState).2).2.memoryHashMap 0 =
       some (buildEntry [1, 2, 3])) :=
  ⟨⟨by decide, rfl, by decide, by decide⟩,
   absent_value_builds_and_reuses 0 [(1 : Int), 2, 3] 9 2 1 initState
     (by decide) rfl (by decide) (by decide)⟩

/-- Claim C2 counterexample: after eleven `IndexOf` lookups against eleven
distinct sequences, each querying a value the sequence does not contain, the
entry store tracks eleven keys — more than the limit of ten — because the
eviction check is reached only when the queried value is found; this refutes
the claim that the tracked-key population never exceeds the limit. -/
theorem population_exceeds_limit_counterexample :
    10 < (callSeq missCalls (initState : CacheState Int)).memoryHashMap.length := by
  decide

/-- Claim C2 (amended): the population bound holds only for calls whose
queried value is found: starting from a well-formed state tracking at most 10
keys, a found-value call leaves at most 10 tracked keys, and if the call
pushed the population above the bound then exactly one key was evicted; a
call whose value is not found performs no eviction and can leave the
population above the bound. -/
theorem population_bound_on_found (key : Nat) (arr : List T) (v : T) (st : CacheState T)
    (hwf : WellFormed st) (hle : st.memoryHashMap.length ≤ 10)
    (hfound : ¬ (IndexOf key arr v st).1 = -1) :
    (IndexOf key arr v st).2.memoryHashMap.length ≤ 10 ∧
    (10 < (lookupState key arr st).memoryHashMap.length →
      (IndexOf key arr v st).2.memoryHashMap.length =
        (lookupState key arr st).memoryHashMap.length - 1) := by
  cases hel : entryLookup
      ((mapLookup (lookupState key arr st).memoryHashMap key).getD []) v with
  | none => exact absurd (by simp [IndexOf, hel]) hfound
  | some i =>
      have hwf2 := wf_lookupState key arr st hwf
      have hlen2 : (lookupState key arr st).memoryHashMap.length ≤
          st.memoryHashMap.length + 1 := by
        cases h0 : mapLookup st.memoryHashMap key with
        | none => rw [lookupState_map_fresh key arr st h0, length_mapInsert_fresh _ _ _ h0]
        | some e =>
            rw [lookupState_map_warm key arr st e h0]
            omega
      by_cases hsz : 10 < (lookupState key arr st).memoryHashMap.length
      · have hev := length_evict (lookupState key arr st) key hwf2 hsz
        have hfin : (IndexOf key arr v st).2 = evict (lookupState key arr st) key := by
          simp [IndexOf, hel, hsz]
        rw [hfin, hev]
        constructor
        · omega
        · intro hh
          rfl
      · have hfin : (IndexOf key arr v st).2 = lookupState key arr st := by
          simp [IndexOf, hel, hsz]
        rw [hfin]
        constructor
        · omega
        · intro hh
          exact absurd hh hsz

theorem population_bound_on_found_witness :
    (WellFormed (callSeq hitCalls (initState : CacheState Int)) ∧
     (callSeq hitCalls (initState : CacheState Int)).memoryHashMap.length ≤ 10 ∧
     ¬ (IndexOf 10 [(10 : Int)] 10 (callSeq hitCalls initState)).1 = -1) ∧
    ((IndexOf 10 [(10 : Int)] 10 (callSeq hitCalls initState)).2.memoryHashMap.length ≤ 10 ∧
     (10 < (lookupState 10 [(10 : Int)] (callSeq hitCalls initState)).memoryHashMap.length →
       (IndexOf 10 [(10 : Int)] 10 (callSeq hitCalls initState)).2.memoryHashMap.length =
         (lookupState 10 [(10 : Int)] (callSeq hitCalls initState)).memoryHashMap.length - 1)) :=
  ⟨⟨by decide, by decide, by decide⟩,
   population_bound_on_found 10 [(10 : Int)] 10 (callSeq hitCalls initState)
     (by decide) (by decide) (by decide)⟩

/-- Claim C4 counterexample: a call that builds the eleventh entry but whose
queried value is absent returns `-1` and performs no eviction, leaving eleven
tracked keys; this refutes the claim that eviction is invoked whenever a
build pushes the population above the bound regardless of whether the value
is found. -/
theorem eviction_skipped_on_miss_counterexample :
    mapLookup (callSeq hitCalls (initState : CacheState Int)).memoryHashMap 10 = none ∧
    (IndexOf 10 [(10 : Int)] 99 (callSeq hitCalls initState)).1 = -1 ∧
    10 < (IndexOf 10 [(10 : Int)] 99 (callSeq hitCalls initState)).2.memoryHashMap.length := by
  refine ⟨by decide, by decide, by decide⟩

/-- Claim C4 (amended): when an `IndexOf` call builds a new cache entry, the
resulting tracked-key population exceeds the bound, and the queried value is
found, the eviction check is invoked during that same call and removes
exactly one key (a previously tracked key different from the current one);
when the queried value is not found, no eviction takes place in that call. -/
theorem eviction_on_found_build (key : Nat) (arr : List T) (v : T) (st : CacheState T)
    (hwf : WellFormed st)
    (hfresh : mapLookup st.memoryHashMap key = none)
    (hpop : 10 < (lookupState key arr st).memoryHashMap.length)
    (hfound : ¬ (IndexOf key arr v st).1 = -1) :
    ∃ k, ¬ k = key ∧ ¬ mapLookup st.memoryHashMap k = none ∧
      mapLookup (IndexOf key arr v st).2.memoryHashMap k = none ∧
      (IndexOf key arr v st).2.memoryHashMap.length = st.memoryHashMap.length := by
  cases hel : entryLookup
      ((mapLookup (lookupState key arr st).memoryHashMap key).getD []) v with
  | none => exact absurd (by simp [IndexOf, hel]) hfound
  | some i =>
      have hwf2 := wf_lookupState key arr st hwf
      obtain ⟨k, c, hk, hlook, hmin, heq, hmemk⟩ :=
        evict_spec (lookupState key arr st) key hwf2 hpop
      have hfin : (IndexOf key arr v st).2 = evict (lookupState key arr st) key := by
        simp [IndexOf, hel, hpop]
      have hkfresh : ¬ key ∈ st.memoryHashMap.map Prod.fst :=
        (mapLookup_eq_none_iff _ _).mp hfresh
      have hkeys2 : (lookupState key arr st).memoryHashMap.map Prod.fst =
          st.memoryHashMap.map Prod.fst ++ [key] := by
        rw [lookupState_map_fresh key arr st hfresh, keys_mapInsert_fresh _ _ _ hkfresh]
      have hkst : k ∈ st.memoryHashMap.map Prod.fst := by
        rw [hkeys2] at hmemk
        rcases List.mem_append.mp hmemk with h1 | h1
        · exact h1
        · rw [List.mem_singleton] at h1
          exact absurd h1 hk
      refine ⟨k, hk, ?_, ?_, ?_⟩
      · intro hnone
        exact (mapLookup_eq_none_iff _ _).mp hnone hkst
      · rw [hfin, heq]
        exact mapLookup_mapErase_self _ _
      · have hlen1 : (lookupState key arr st).memoryHashMap.length =
            st.memoryHashMap.length + 1 := by
          rw [lookupState_map_fresh key arr st hfresh, length_mapInsert_fresh _ _ _ hfresh]
        have hev := length_evict (lookupState key arr st) key hwf2 hpop
        rw [hfin, hev, hlen1]
        omega

theorem eviction_on_found_build_witness :
    (WellFormed (callSeq hitCalls (initState : CacheState Int)) ∧
     mapLookup (callSeq hitCalls (initState : CacheState Int)).memoryHashMap 10 = none ∧
     10 < (lookupState 10 [(10 : Int)] (callSeq hitCalls initState)).memoryHashMap.length ∧
     ¬ (IndexOf 10 [(10 : Int)] 10 (callSeq hitCalls initState)).1 = -1) ∧
    (∃ k, ¬ k = 10 ∧
      ¬ mapLookup (callSeq hitCalls (initState : CacheState Int)).memoryHashMap k = none ∧
      mapLookup (IndexOf 10 [(10 : Int)] 10 (callSeq hitCalls initState)).2.memoryHashMap k =
        none ∧
      (IndexOf 10 [(10 : Int)] 10 (callSeq hitCalls initState)).2.memoryHashMap.length =
        (callSeq hitCalls (initState : CacheState Int)).memoryHashMap.length) :=
  ⟨⟨by decide, by decide, by decide, by decide⟩,
   eviction_on_found_build 10 [(10 : Int)] 10 (callSeq hitCalls initState)
     (by decide) (by decide) (by decide) (by decide)⟩

/-- Claim C5: when eviction occurs during an `IndexOf` call, the removed key
has the minimum access-counter value among all currently tracked keys except
the key used by the current call (the counters at that point being the input
counters with the current key's one incremented; ties go to the first such
key in iteration order), and exactly that one key's entry and counter are
removed — at most one key per eviction event. -/
theorem eviction_removes_least_referenced (key : Nat) (arr : List T) (v : T) (st : CacheState T)
    (hwf : WellFormed st)
    (hpop : 10 < (lookupState key arr st).memoryHashMap.length)
    (hfound : ¬ (IndexOf key arr v st).1 = -1) :
    ∃ k c, ¬ k = key ∧
      mapLookup (counterIncr st.memoryHashCounter key) k = some c ∧
      (∀ k2 c2, ¬ k2 = key →
        mapLookup (counterIncr st.memoryHashCounter key) k2 = some c2 → c ≤ c2) ∧
      (IndexOf key arr v st).2.memoryHashMap =
        mapErase (lookupState key arr st).memoryHashMap k ∧
      (IndexOf key arr v st).2.memoryHashCounter =
        mapErase (counterIncr st.memoryHashCounter key) k := by
  cases hel : entryLookup
      ((mapLookup (lookupState key arr st).memoryHashMap key).getD []) v with
  | none => exact absurd (by simp [IndexOf, hel]) hfound
  | some i =>
      have hwf2 := wf_lookupState key arr st hwf
      obtain ⟨k, c, hk, hlook, hmin, heq, hmemk⟩ :=
        evict_spec (lookupState key arr st) key hwf2 hpop
      have hcnt := lookupState_counter key arr st
      have hfin : (IndexOf key arr v st).2 = evict (lookupState key arr st) key := by
        simp [IndexOf, hel, hpop]
      rw [hcnt] at hlook hmin
      refine ⟨k, c, hk, hlook, hmin, ?_, ?_⟩
      · rw [hfin, heq]
      · rw [hfin, heq]
        show mapErase (lookupState key arr st).memoryHashCounter k =
          mapErase (counterIncr st.memoryHashCounter key) k
        rw [hcnt]

theorem eviction_removes_least_referenced_witness :
    (WellFormed (callSeq missCalls (initState : CacheState Int)) ∧
     10 < (lookupState 0 [(0 : Int)] (callSeq missCalls initState)).memoryHashMap.length ∧
     ¬ (IndexOf 0 [(0 : Int)] 0 (callSeq missCalls initState)).1 = -1) ∧
    (∃ k c, ¬ k = 0 ∧
      mapLookup (counterIncr (callSeq missCalls (initState : CacheState Int)).memoryHashCounter 0)
        k = some c ∧
      (∀ k2 c2, ¬ k2 = 0 →
        mapLookup (counterIncr (callSeq missCalls (initState : CacheState Int)).memoryHashCounter 0)
          k2 = some c2 → c ≤ c2) ∧
      (IndexOf 0 [(0 : Int)] 0 (callSeq missCalls initState)).2.memoryHashMap =
        mapErase (lookupState 0 [(0 : Int)] (callSeq missCalls initState)).memoryHashMap k ∧
      (IndexOf 0 [(0 : Int)] 0 (callSeq missCalls initState)).2.memoryHashCounter =
        mapErase (counterIncr (callSeq missCalls (initState : CacheState Int)).memoryHashCounter 0)
          k) :=
  ⟨⟨by decide, by decide, by decide⟩,
   eviction_removes_least_referenced 0 [(0 : Int)] 0 (callSeq missCalls initState)
     (by decide) (by decide) (by decide)⟩

/-- Claim C8: the cache key is derived solely from the base address of the
slice's backing storage — not from its length or contents — so two live
slices over the same backing array (the full slice `[5, 3, 5, 8]` and its
length-2 re-slice) share one key: the second call consults the entry built
for the first and returns `3`, disagreeing with a naive scan of its own
argument (which yields `-1`) and exceeding that argument's length `2`, with
no storage ever freed or reused. -/
theorem cache_key_ignores_slice_length :
    (∀ s : GoSlice, keyOf s = s.addr) ∧
    (IndexOfMem ([5, 3, 5, 8] : List Int) (GoSlice.mk 0 4) 8 initState).1 = 3 ∧
    (IndexOfMem ([5, 3, 5, 8] : List Int) (GoSlice.mk 0 2) 8
        (IndexOfMem ([5, 3, 5, 8] : List Int) (GoSlice.mk 0 4) 8 initState).2.2).1 = 3 ∧
    naiveIndexOf (readSlice ([5, 3, 5, 8] : List Int) (GoSlice.mk 0 2)) 8 = -1 ∧
    ((GoSlice.mk 0 2).len : Int) ≤
      (IndexOfMem ([5, 3, 5, 8] : List Int) (GoSlice.mk 0 2) 8
        (IndexOfMem ([5, 3, 5, 8] : List Int) (GoSlice.mk 0 4) 8 initState).2.2).1 :=
  ⟨fun s => rfl, by decide, by decide, by decide, by decide⟩

/-- Claim C9: after every completed `IndexOf` call in any sequential run from
the initial empty state, the entry store and the access-counter map track
exactly the same keys: the key sequences of the two global maps coincide, and
for every key a lookup succeeds in one map exactly when it succeeds in the
other. -/
theorem entry_and_counter_keysets_agree (calls : List (Nat × List T × T)) (k : Nat) :
    (callSeq calls (initState : CacheState T)).memoryHashMap.map Prod.fst =
      (callSeq calls (initState : CacheState T)).memoryHashCounter.map Prod.fst ∧
    (mapLookup (callSeq calls (initState : CacheState T)).memoryHashMap k).isSome =
      (mapLookup (callSeq calls (initState : CacheState T)).memoryHashCounter k).isSome := by
  have hwf := wf_callSeq calls (initState : CacheState T) wf_initState
  have hkeys : (callSeq calls (initState : CacheState T)).memoryHashMap.map Prod.fst =
      (callSeq calls (initState : CacheState T)).memoryHashCounter.map Prod.fst := hwf.1
  refine ⟨hkeys, ?_⟩
  have h1 := mapLookup_isSome_iff (callSeq calls (initState : CacheState T)).memoryHashMap k
  have h2 := mapLookup_isSome_iff (callSeq calls (initState : CacheState T)).memoryHashCounter k
  rw [hkeys] at h1
  by_cases hmem : k ∈ (callSeq calls (initState : CacheState T)).memoryHashCounter.map Prod.fst
  · rw [h1.mpr hmem, h2.mpr hmem]
  · have hf1 : ¬ (mapLookup (callSeq calls (initState : CacheState T)).memoryHashMap k).isSome =
        true := fun hh => hmem (h1.mp hh)
    have hf2 : ¬ (mapLookup (callSeq calls
        (initState : CacheState T)).memoryHashCounter k).isSome = true :=
      fun hh => hmem (h2.mp hh)
    rw [Bool.not_eq_true] at hf1 hf2
    rw [hf1, hf2]

/-- Claim C10: `IndexOf` never modifies its input slice: the body of the Go
function only reads the slice (to derive the key and to build the cache
entry) and mutates only the process-wide cache maps, so in the memory-level
embedding the memory returned by a call is the input memory, and the argument
slice denotes the same length and elements after the call as before. -/
theorem indexOfMem_never_mutates_slice [Inhabited T] (mem : List T) (s : GoSlice) (v : T)
    (st : CacheState T) :
    (IndexOfMem mem s v st).2.1 = mem ∧
    readSlice (IndexOfMem mem s v st).2.1 s = readSlice mem s :=
  ⟨rfl, rfl⟩

end Islice
